import Mathlib

set_option allowUnsafeReducibility true in
attribute [semireducible] Rat.add Rat.mul Rat.inv Rat.sub Rat.div Rat.ofScientific

set_option maxRecDepth 4000000

/-!
# Numerical MCMC diagnostics: ESS, R-hat, MCSE

A shallow embedding of the numerical-diagnostics library described by this
repository (effective sample size, split-chain Gelman-Rubin statistic, and
Monte Carlo standard error by batch means).  The repository itself contains
only notebook calls into an external statistics library, so every
computational definition below is modelled from the specification's own
algorithm descriptions, over exact rational arithmetic.

Square roots are not rational, so the two statistics that end in a square
root (R-hat and MCSE) are tracked through their squares (`rhatSq`,
`mcseSq`); since `Real.sqrt` is a monotone bijection on nonnegative reals,
every comparison, invariance and equality claimed of R-hat or MCSE is
equivalent to the corresponding fact about the square.
-/

namespace Diagnostics

/-- A chain: the draws of one scalar parameter from one run of a sampler. -/
abbrev Chain := List ℚ

/-- A chain matrix: M chains of N draws each (rows are chains). -/
abbrev ChainMatrix := List Chain

/-- Number of chains M. -/
def numChains (m : ChainMatrix) : ℕ := m.length

/-- Number of draws per chain N (read off the first chain; the
preconditions require a rectangular matrix). -/
def numDraws (m : ChainMatrix) : ℕ := (m.headD []).length

/-- Arithmetic mean of a list of rationals (0 on the empty list, since
`ℚ` division by zero is zero). -/
def mean (xs : List ℚ) : ℚ := xs.sum / xs.length

/-- Modelled from the spec: `chainMean(matrix)` returns the length-M
sequence of per-chain means (§4.1). -/
def chainMean (m : ChainMatrix) : List ℚ := m.map mean

/-- Sample variance with Bessel's correction, `1/(n-1) · Σ (x - x̄)²`. -/
def sampleVar (xs : List ℚ) : ℚ :=
  (xs.map (fun x => (x - mean xs) ^ 2)).sum / ((xs.length : ℚ) - 1)

/-- Population variance, `1/n · Σ (x - x̄)²`. -/
def popVar (xs : List ℚ) : ℚ :=
  (xs.map (fun x => (x - mean xs) ^ 2)).sum / (xs.length : ℚ)

/-- Within-chain variance W = (1/M)·Σ_m sampleVar(chain m) (§4.4). -/
def Wvar (m : ChainMatrix) : ℚ := mean (m.map sampleVar)

/-- Between-chain variance B = (N/(M−1))·Σ_m (θ̄_m − θ̄_·)² (§4.4). -/
def Bvar (m : ChainMatrix) : ℚ :=
  ((numDraws m : ℚ) / ((numChains m : ℚ) - 1)) *
    ((chainMean m).map (fun x => (x - mean (chainMean m)) ^ 2)).sum

/-- Pooled marginal posterior variance estimate
V̂ = ((N−1)/N)·W + (1/N)·B (§4.4, also the normalizer of §4.2). -/
def varHat (m : ChainMatrix) : ℚ :=
  (((numDraws m : ℚ) - 1) / (numDraws m : ℚ)) * Wvar m
    + (1 / (numDraws m : ℚ)) * Bvar m

/-- The two halves of one chain: its first `⌊N/2⌋` draws and the next
`⌊N/2⌋` draws.  When N is odd the final draw belongs to neither half. -/
def splitChain (c : Chain) : List Chain :=
  [c.take (c.length / 2), (c.drop (c.length / 2)).take (c.length / 2)]

/-- Modelled from the spec: `splitChains(matrix)` splits each of the M
chains into its first and second halves, treated as independent chains,
truncating the last draw of each chain when N is odd (§4.1). -/
def splitChains (m : ChainMatrix) : ChainMatrix := m.flatMap splitChain

/-- The error taxonomy of §7: `invalidShape` for precondition violations on
the array shape, `degenerateChain` for zero within-chain variance. -/
inductive DiagError where
  | invalidShape
  | degenerateChain
deriving DecidableEq

instance : DecidableEq (Except DiagError ℚ) := fun a b =>
  match a, b with
  | .error e, .error f => decidable_of_iff (e = f) (by simp)
  | .ok x, .ok y => decidable_of_iff (x = y) (by simp)
  | .error _, .ok _ => isFalse (by simp)
  | .ok _, .error _ => isFalse (by simp)

/-- Modelled from the spec: the square of `rhat(matrix)` (§4.4).  Splits
each chain in half, then returns V̂/W of the split matrix; R̂ is the square
root of this value.  Fails with `invalidShape` when there is no chain or a
chain has fewer than 4 draws (fewer than 2 after splitting, leaving W
undefined), and with `degenerateChain` when W = 0. -/
def rhatSq (m : ChainMatrix) : Except DiagError ℚ :=
  if m.length = 0 ∨ m.any (fun c => c.length < 4) then .error .invalidShape
  else
    let s := splitChains m
    if Wvar s = 0 then .error .degenerateChain
    else .ok (varHat s / Wvar s)

/-- Autocovariance of one chain at lag t, `(1/N) Σ_{n} (θ_n − θ̄)(θ_{n+t} − θ̄)`
over the N − t available pairs. -/
def autocov (c : Chain) (t : ℕ) : ℚ :=
  let d := c.map (fun x => x - mean c)
  (List.zipWith (· * ·) d (d.drop t)).sum / (c.length : ℚ)

/-- Modelled from the spec: the multi-chain autocorrelation estimate at lag
t — the average of the per-chain autocovariances at that lag, divided by
the pooled variance estimate V̂ of §4.4 (§4.2). -/
def rhoHat (m : ChainMatrix) (t : ℕ) : ℚ :=
  mean (m.map (fun c => autocov c t)) / varHat m

/-- Paired-lag autocorrelation sum P_k = ρ̂_{2k} + ρ̂_{2k+1} (§4.2). -/
def pairedP (m : ChainMatrix) (k : ℕ) : ℚ := rhoHat m (2 * k) + rhoHat m (2 * k + 1)

/-- Geyer initial-positive-sequence scan: starting at pair index k with the
given fuel, accumulate 2·P_j over consecutive pairs, stopping at the first
j with P_j ≤ 0 (or when the lags run out). -/
def geyerSum (P : ℕ → ℚ) : ℕ → ℕ → ℚ
  | 0, _ => 0
  | fuel + 1, k => if P k ≤ 0 then 0 else 2 * P k + geyerSum P fuel (k + 1)

/-- Modelled from the spec: τ̂ = −1 + 2·Σ_{k=0}^{K} P_k, where K is found by
scanning k = 0, 1, … upward and stopping at the first k with P_k ≤ 0
(Geyer's initial positive sequence rule); the scan also stops when the
paired lags are exhausted (2k+1 ≤ N−1, i.e. k < ⌊N/2⌋).  If P_0 ≤ 0 the
sum is empty and τ̂ = −1 (§4.2; the spec's optional defensive clamp is
explicitly left to the implementer's discretion and is not applied). -/
def tauHat (m : ChainMatrix) : ℚ := -1 + geyerSum (pairedP m) (numDraws m / 2) 0

/-- Modelled from the spec: `ess(matrix)` = N̂_eff = M·N / τ̂ (§4.3). -/
def ess (m : ChainMatrix) : ℚ := ((numChains m : ℚ) * (numDraws m : ℚ)) / tauHat m

/-- Means of `b` contiguous batches of equal size ⌊len/b⌋ taken from the
flattened draws; remainder draws beyond `b·⌊len/b⌋` are dropped. -/
def batchMeans (xs : List ℚ) (b : ℕ) : List ℚ :=
  (List.range b).map (fun i => mean ((xs.drop (i * (xs.length / b))).take (xs.length / b)))

/-- Modelled from the spec: the square of `mcse(matrix, numBatches)`
(§4.5).  Partitions the flattened draws into `numBatches` contiguous
batches of equal size (dropping remainder draws), and returns the variance
of the batch means divided by `numBatches`; the MCSE itself is the square
root of this value (the standard deviation of the batch means divided by
√numBatches).  Fails with `invalidShape` when `numBatches < 2` or
`numBatches` exceeds the total draw count. -/
def mcseSq (m : ChainMatrix) (numBatches : ℕ) : Except DiagError ℚ :=
  let xs := m.flatten
  if numBatches < 2 ∨ xs.length < numBatches then .error .invalidShape
  else .ok (popVar (batchMeans xs numBatches) / (numBatches : ℚ))

/-- First chain of the notebook's `bad_chains`: draws 0/999 … 499/999. -/
def badRow0 : Chain := List.map (fun n : ℕ => (n : ℚ) / 999) (List.range 500)

/-- Second chain of the notebook's `bad_chains`: draws 500/999 … 999/999. -/
def badRow1 : Chain := List.map (fun n : ℕ => ((n : ℚ) + 500) / 999) (List.range 500)

/-- The notebook's `bad_chains`: `np.linspace(0, 1, 1000).reshape(2, -1)`,
i.e. the 1000 equally spaced values i/999 split into two chains of 500. -/
def badChains : ChainMatrix := [badRow0, badRow1]

/-!
### Kernel-friendly computational mirrors

Evaluating the diagnostics on the notebook's concrete 2×500 matrix requires
reducing long folds inside the proof checker.  The spec-level definitions
above accumulate unevaluated sums whose final forcing recurses once per
list element; on 500-element chains that recursion is deeper than the
checker's stack.  The definitions below compute the same rational values
tail-recursively, normalizing the accumulator at every step by matching on
the `Rat` constructor, which keeps reduction depth constant.  Each mirror
is proved equal to its spec-level counterpart below, so every concrete
evaluation is transported back to the specification's own definitions. -/

/-- Tail-recursive sum with a forced accumulator: `sumTR l a = a + l.sum`. -/
def sumTR : List ℚ → ℚ → ℚ
  | [], acc => acc
  | x :: l, acc => match acc + x with
    | ⟨n, d, h₁, h₂⟩ => sumTR l ⟨n, d, h₁, h₂⟩

/-- Tail-recursive dot product with a forced accumulator:
`sumMulTR l r a = a + (zipWith (·*·) l r).sum`. -/
def sumMulTR : List ℚ → List ℚ → ℚ → ℚ
  | x :: l, y :: r, acc => match acc + x * y with
    | ⟨n, d, h₁, h₂⟩ => sumMulTR l r ⟨n, d, h₁, h₂⟩
  | _, _, acc => acc

/-- Tail-recursive sum of squared deviations from `mu` with a forced
accumulator. -/
def sumSqTR (mu : ℚ) : List ℚ → ℚ → ℚ
  | [], acc => acc
  | x :: l, acc => match acc + (x - mu) ^ 2 with
    | ⟨n, d, h₁, h₂⟩ => sumSqTR mu l ⟨n, d, h₁, h₂⟩

/-- Centered copy of a list with each element forced:
`centerTR mu l = l.map (· - mu)`. -/
def centerTR (mu : ℚ) : List ℚ → List ℚ
  | [] => []
  | x :: l => match x - mu with
    | ⟨n, d, h₁, h₂⟩ => (⟨n, d, h₁, h₂⟩ : ℚ) :: centerTR mu l

/-- Mirror of `mean`. -/
def meanC (xs : List ℚ) : ℚ := sumTR xs 0 / (xs.length : ℚ)

/-- Mirror of `sampleVar`. -/
def sampleVarC (xs : List ℚ) : ℚ :=
  sumSqTR (meanC xs) xs 0 / ((xs.length : ℚ) - 1)

/-- Mirror of `Wvar`. -/
def WvarC (m : ChainMatrix) : ℚ := sumTR (m.map sampleVarC) 0 / (m.length : ℚ)

/-- Mirror of `chainMean`. -/
def chainMeanC (m : ChainMatrix) : List ℚ := m.map meanC

/-- Mirror of `Bvar`. -/
def BvarC (m : ChainMatrix) : ℚ :=
  ((numDraws m : ℚ) / ((numChains m : ℚ) - 1)) *
    sumSqTR (meanC (chainMeanC m)) (chainMeanC m) 0

/-- Mirror of `varHat`. -/
def varHatC (m : ChainMatrix) : ℚ :=
  (((numDraws m : ℚ) - 1) / (numDraws m : ℚ)) * WvarC m
    + (1 / (numDraws m : ℚ)) * BvarC m

/-- Mirror of `rhatSq`. -/
def rhatSqC (m : ChainMatrix) : Except DiagError ℚ :=
  if m.length = 0 ∨ m.any (fun c => c.length < 4) then .error .invalidShape
  else
    let s := splitChains m
    let w := WvarC s
    if w = 0 then .error .degenerateChain
    else .ok (varHatC s / w)

/-- Lag-t autocovariance from a precomputed (centered chain, length) pair. -/
def autocovC (p : Chain × ℚ) (t : ℕ) : ℚ := sumMulTR p.1 (p.1.drop t) 0 / p.2

/-- Geyer scan that forces each paired-lag value once before branching on
its sign: pointwise equal to `geyerSum`. -/
def geyerC (P : ℕ → ℚ) : ℕ → ℕ → ℚ
  | 0, _ => 0
  | fuel + 1, k => match P k with
    | ⟨n, d, h₁, h₂⟩ =>
      if (⟨n, d, h₁, h₂⟩ : ℚ) ≤ 0 then 0
      else 2 * (⟨n, d, h₁, h₂⟩ : ℚ) + geyerC P fuel (k + 1)

/-- Mirror of `ess`: centers every chain once, shares the pooled variance
estimate across all lags, and runs the forced Geyer scan. -/
def essC (m : ChainMatrix) : ℚ :=
  let ds : List (Chain × ℚ) := m.map (fun c => (centerTR (meanC c) c, (c.length : ℚ)))
  let V : ℚ := varHatC m
  let M : ℚ := (m.length : ℚ)
  let P : ℕ → ℚ := fun k =>
    sumTR (ds.map (fun p => autocovC p (2 * k))) 0 / M / V
      + sumTR (ds.map (fun p => autocovC p (2 * k + 1))) 0 / M / V
  ((numChains m : ℚ) * (numDraws m : ℚ)) / (-1 + geyerC P (numDraws m / 2) 0)

/-- Matrix with the constant `c` added to every draw. -/
def shiftMatrix (c : ℚ) (m : ChainMatrix) : ChainMatrix :=
  m.map (List.map (fun x => x + c))

/-- Matrix with every draw multiplied by the scalar `a`. -/
def scaleMatrix (a : ℚ) (m : ChainMatrix) : ChainMatrix :=
  m.map (List.map (fun x => a * x))

/-- Integer dot product with a forced accumulator:
`dotZTR l r a = a + (zipWith (·*·) l r).sum`. -/
def dotZTR : List ℤ → List ℤ → ℤ → ℤ
  | x :: l, y :: r, acc => match acc + x * y with
    | .ofNat n => dotZTR l r (.ofNat n)
    | .negSucc n => dotZTR l r (.negSucc n)
  | _, _, acc => acc

/-- Paired-lag autocovariance numerator over a centered integer chain:
the lag-2k and lag-(2k+1) dot products, before the common positive
denominator is divided out. -/
def intP (dz : List ℤ) (k : ℕ) : ℤ :=
  dotZTR dz (dz.drop (2 * k)) 0 + dotZTR dz (dz.drop (2 * k + 1)) 0

/-- Integer mirror of the Geyer scan, for a paired sequence whose rational
values are `f k` divided by one fixed positive constant (so the sign tests
agree): `geyerZ f fuel k` times that constant equals `geyerSum` of the
rational sequence. -/
def geyerZ (f : ℕ → ℤ) : ℕ → ℕ → ℤ
  | 0, _ => 0
  | fuel + 1, k => match f k with
    | .ofNat 0 => 0
    | .ofNat (n + 1) => 2 * (Int.ofNat (n + 1)) + geyerZ f fuel (k + 1)
    | .negSucc _ => 0

/-- The centered first chain of `badChains`, scaled by 2·999 = 1998 to land
in ℤ: entry n is 2n − 499. -/
def dzBad : List ℤ := List.map (fun n : ℕ => 2 * (n : ℤ) - 499) (List.range 500)

/-!
### Lemmas: tail-recursive mirrors agree with the spec-level definitions
-/

theorem sumTR_cons (x : ℚ) (l : List ℚ) (acc : ℚ) :
    sumTR (x :: l) acc = sumTR l (acc + x) := by
  show (match acc + x with
    | ⟨n, d, h₁, h₂⟩ => sumTR l ⟨n, d, h₁, h₂⟩) = sumTR l (acc + x)
  rcases hq : acc + x with ⟨n, d, h₁, h₂⟩
  rfl

theorem sumTR_eq (l : List ℚ) : ∀ acc : ℚ, sumTR l acc = acc + l.sum := by
  induction l with
  | nil => intro acc; simp [sumTR]
  | cons x l ih => intro acc; rw [sumTR_cons, ih, List.sum_cons, add_assoc]

theorem sumMulTR_cons (x y : ℚ) (l r : List ℚ) (acc : ℚ) :
    sumMulTR (x :: l) (y :: r) acc = sumMulTR l r (acc + x * y) := by
  show (match acc + x * y with
    | ⟨n, d, h₁, h₂⟩ => sumMulTR l r ⟨n, d, h₁, h₂⟩) = sumMulTR l r (acc + x * y)
  rcases hq : acc + x * y with ⟨n, d, h₁, h₂⟩
  rfl

theorem sumMulTR_eq (l : List ℚ) : ∀ (r : List ℚ) (acc : ℚ),
    sumMulTR l r acc = acc + (List.zipWith (· * ·) l r).sum := by
  induction l with
  | nil => intro r acc; cases r <;> simp [sumMulTR]
  | cons x l ih =>
      intro r acc
      cases r with
      | nil => simp [sumMulTR]
      | cons y r =>
          rw [sumMulTR_cons, ih, List.zipWith_cons_cons, List.sum_cons, add_assoc]

theorem sumSqTR_cons (mu x : ℚ) (l : List ℚ) (acc : ℚ) :
    sumSqTR mu (x :: l) acc = sumSqTR mu l (acc + (x - mu) ^ 2) := by
  show (match acc + (x - mu) ^ 2 with
    | ⟨n, d, h₁, h₂⟩ => sumSqTR mu l ⟨n, d, h₁, h₂⟩) = sumSqTR mu l (acc + (x - mu) ^ 2)
  rcases hq : acc + (x - mu) ^ 2 with ⟨n, d, h₁, h₂⟩
  rfl

theorem sumSqTR_eq (mu : ℚ) (l : List ℚ) : ∀ acc : ℚ,
    sumSqTR mu l acc = acc + (l.map (fun x => (x - mu) ^ 2)).sum := by
  induction l with
  | nil => intro acc; simp [sumSqTR]
  | cons x l ih =>
      intro acc
      rw [sumSqTR_cons, ih, List.map_cons, List.sum_cons, add_assoc]

theorem centerTR_cons (mu x : ℚ) (l : List ℚ) :
    centerTR mu (x :: l) = (x - mu) :: centerTR mu l := by
  show (match x - mu with
    | ⟨n, d, h₁, h₂⟩ => (⟨n, d, h₁, h₂⟩ : ℚ) :: centerTR mu l) = (x - mu) :: centerTR mu l
  rcases hq : x - mu with ⟨n, d, h₁, h₂⟩
  rfl

theorem centerTR_eq (mu : ℚ) (l : List ℚ) : centerTR mu l = l.map (fun x => x - mu) := by
  induction l with
  | nil => rfl
  | cons x l ih => rw [centerTR_cons, ih, List.map_cons]

theorem meanC_fun : meanC = mean := by
  funext xs
  unfold meanC mean
  rw [sumTR_eq, zero_add]

theorem sampleVarC_fun : sampleVarC = sampleVar := by
  funext xs
  unfold sampleVarC sampleVar
  rw [sumSqTR_eq, zero_add, meanC_fun]

theorem chainMeanC_fun : chainMeanC = chainMean := by
  funext m
  unfold chainMeanC chainMean
  rw [meanC_fun]

theorem WvarC_fun : WvarC = Wvar := by
  funext m
  unfold WvarC Wvar mean
  rw [sumTR_eq, zero_add, sampleVarC_fun, List.length_map]

theorem BvarC_fun : BvarC = Bvar := by
  funext m
  unfold BvarC Bvar
  rw [sumSqTR_eq, zero_add, chainMeanC_fun, meanC_fun]

theorem varHatC_fun : varHatC = varHat := by
  funext m
  unfold varHatC varHat
  rw [WvarC_fun, BvarC_fun]

theorem rhatSqC_eq (m : ChainMatrix) : rhatSqC m = rhatSq m := by
  simp only [rhatSqC, rhatSq, WvarC_fun, varHatC_fun]

theorem geyerC_eq (P : ℕ → ℚ) : ∀ fuel k, geyerC P fuel k = geyerSum P fuel k := by
  intro fuel
  induction fuel with
  | zero => intro k; rfl
  | succ fuel ih =>
      intro k
      have hstep : geyerC P (fuel + 1) k
          = if P k ≤ 0 then 0 else 2 * P k + geyerC P fuel (k + 1) := by
        show (match P k with
          | ⟨n, d, h₁, h₂⟩ =>
            if (⟨n, d, h₁, h₂⟩ : ℚ) ≤ 0 then 0
            else 2 * (⟨n, d, h₁, h₂⟩ : ℚ) + geyerC P fuel (k + 1))
          = if P k ≤ 0 then 0 else 2 * P k + geyerC P fuel (k + 1)
        rcases hq : P k with ⟨n, d, h₁, h₂⟩
        rfl
      rw [hstep, ih, geyerSum]

theorem autocovC_center (c : Chain) (t : ℕ) :
    autocovC (centerTR (meanC c) c, (c.length : ℚ)) t = autocov c t := by
  unfold autocovC autocov
  rw [centerTR_eq, meanC_fun, sumMulTR_eq, zero_add]

theorem essC_eq (m : ChainMatrix) : essC m = ess m := by
  have hP : (fun k =>
      sumTR ((m.map (fun c => (centerTR (meanC c) c, (c.length : ℚ)))).map
          (fun p => autocovC p (2 * k))) 0 / (m.length : ℚ) / varHatC m
        + sumTR ((m.map (fun c => (centerTR (meanC c) c, (c.length : ℚ)))).map
          (fun p => autocovC p (2 * k + 1))) 0 / (m.length : ℚ) / varHatC m)
      = pairedP m := by
    funext k
    simp only [List.map_map, Function.comp_def, autocovC_center, pairedP, rhoHat,
      mean, sumTR_eq, zero_add, List.length_map, varHatC_fun]
  simp only [essC, hP, geyerC_eq, ess, tauHat]

/-!
### Lemmas: list sums as indexed sums, split-chain structure
-/

theorem sum_map_range {α : Type} (f : α → ℚ) (d : α) :
    ∀ l : List α, (l.map f).sum = ∑ i ∈ Finset.range l.length, f (l.getD i d) := by
  intro l
  induction l with
  | nil => simp
  | cons x l ih =>
      rw [List.map_cons, List.sum_cons, ih, List.length_cons, Finset.sum_range_succ']
      simp [add_comm]

theorem map_getD_range (xs : List ℚ) :
    (List.range xs.length).map (fun i => xs.getD i 0) = xs := by
  induction xs with
  | nil => rfl
  | cons x l ih =>
      rw [List.length_cons, List.range_succ_eq_map, List.map_cons, List.map_map]
      simp only [Function.comp_def, List.getD_cons_zero, List.getD_cons_succ]
      rw [ih]

theorem splitChains_cons (c : Chain) (m : ChainMatrix) :
    splitChains (c :: m) =
      c.take (c.length / 2) :: (c.drop (c.length / 2)).take (c.length / 2) :: splitChains m := by
  simp [splitChains, splitChain]

theorem splitChains_length (m : ChainMatrix) : (splitChains m).length = 2 * m.length := by
  induction m with
  | nil => rfl
  | cons c m ih =>
      rw [splitChains_cons, List.length_cons, List.length_cons, ih, List.length_cons]
      omega

theorem splitChains_getD_even :
    ∀ (m : ChainMatrix) (i : ℕ), i < m.length →
      (splitChains m).getD (2 * i) [] = (m.getD i []).take ((m.getD i []).length / 2) := by
  intro m
  induction m with
  | nil => intro i h; simp at h
  | cons c m ih =>
      intro i h
      cases i with
      | zero => rw [splitChains_cons]; rfl
      | succ i =>
          rw [splitChains_cons, show 2 * (i + 1) = 2 * i + 1 + 1 by ring]
          simp only [List.getD_cons_succ]
          exact ih i (by simpa using h)

theorem splitChains_getD_odd :
    ∀ (m : ChainMatrix) (i : ℕ), i < m.length →
      (splitChains m).getD (2 * i + 1) []
        = ((m.getD i []).drop ((m.getD i []).length / 2)).take ((m.getD i []).length / 2) := by
  intro m
  induction m with
  | nil => intro i h; simp at h
  | cons c m ih =>
      intro i h
      cases i with
      | zero => rw [splitChains_cons]; rfl
      | succ i =>
          rw [splitChains_cons, show 2 * (i + 1) + 1 = 2 * i + 1 + 1 + 1 by ring]
          simp only [List.getD_cons_succ]
          exact ih i (by simpa using h)

theorem splitChains_row_length (m : ChainMatrix) (N : ℕ) (hN : ∀ c ∈ m, c.length = N) :
    ∀ c ∈ splitChains m, c.length = N / 2 := by
  intro c hc
  rw [splitChains, List.mem_flatMap] at hc
  obtain ⟨a, ha, hmem⟩ := hc
  have hlen : a.length = N := hN a ha
  simp only [splitChain, List.mem_cons, List.mem_singleton] at hmem
  rcases hmem with h | h | h
  · subst h; rw [List.length_take, hlen]; omega
  · subst h; rw [List.length_take, List.length_drop, hlen]; omega
  · simp at h

theorem getD_mem_of_lt (m : ChainMatrix) (i : ℕ) (h : i < m.length) :
    m.getD i [] ∈ m := by
  induction m generalizing i with
  | nil => simp at h
  | cons c t ih =>
      cases i with
      | zero => simp
      | succ i => simp only [List.getD_cons_succ]; exact List.mem_cons_of_mem _ (ih i (by simpa using h))

theorem drop_take_one (xs : List ℚ) : ∀ i, i < xs.length → (xs.drop i).take 1 = [xs.getD i 0] := by
  induction xs with
  | nil => intro i h; simp at h
  | cons x l ih =>
      intro i h
      cases i with
      | zero => rfl
      | succ i =>
          simp only [List.drop_succ_cons, List.getD_cons_succ]
          exact ih i (by simpa using h)

theorem batchMeans_self (xs : List ℚ) (h : xs.length ≠ 0) : batchMeans xs xs.length = xs := by
  unfold batchMeans
  rw [Nat.div_self (Nat.pos_of_ne_zero h)]
  have hpt : ∀ i ∈ List.range xs.length, mean ((xs.drop (i * 1)).take 1) = xs.getD i 0 := by
    intro i hi
    rw [List.mem_range] at hi
    rw [mul_one, drop_take_one xs i hi]
    simp [mean]
  rw [List.map_congr_left hpt, map_getD_range]

/-!
### Claims
-/

/-- C7: `splitChains` on a rectangular (M, N) matrix returns a (2M, ⌊N/2⌋)
matrix whose rows 2i and 2i+1 are the first and second halves of chain i;
for even N the two halves concatenate back to the whole chain, and for odd
N they concatenate to the chain with exactly its one trailing draw dropped
(each half holding N/2 = (N−1)/2 draws). -/
theorem C7_splitChains_shape (m : ChainMatrix) (N : ℕ) (hN : ∀ c ∈ m, c.length = N) :
    (splitChains m).length = 2 * m.length
    ∧ (∀ c ∈ splitChains m, c.length = N / 2)
    ∧ (N % 2 = 1 → N / 2 = (N - 1) / 2)
    ∧ ∀ i, i < m.length →
        (splitChains m).getD (2 * i) [] = (m.getD i []).take (N / 2)
        ∧ (splitChains m).getD (2 * i + 1) [] = ((m.getD i []).drop (N / 2)).take (N / 2)
        ∧ (N % 2 = 0 →
            (splitChains m).getD (2 * i) [] ++ (splitChains m).getD (2 * i + 1) []
              = m.getD i [])
        ∧ (N % 2 = 1 →
            (splitChains m).getD (2 * i) [] ++ (splitChains m).getD (2 * i + 1) []
              = (m.getD i []).dropLast) := by
  refine ⟨splitChains_length m, splitChains_row_length m N hN, fun _ => by omega, ?_⟩
  intro i hi
  have hrow : (m.getD i []).length = N := hN _ (getD_mem_of_lt m i hi)
  have he := splitChains_getD_even m i hi
  have ho := splitChains_getD_odd m i hi
  rw [hrow] at he ho
  refine ⟨he, ho, ?_, ?_⟩
  · intro hpar
    rw [he, ho, ← List.take_add, show N / 2 + N / 2 = N from by omega, ← hrow,
      List.take_length]
  · intro hpar
    rw [he, ho, ← List.take_add, List.dropLast_eq_take, hrow,
      show N / 2 + N / 2 = N - 1 from by omega]

/-- Witness for C7 at the one-chain matrix [[1,2,3,4,5]] with odd N = 5. -/
theorem C7_witness :
    (splitChains [[(1 : ℚ), 2, 3, 4, 5]]).length = 2 * [[(1 : ℚ), 2, 3, 4, 5]].length
    ∧ (splitChains [[(1 : ℚ), 2, 3, 4, 5]]).getD 0 [] = [(1 : ℚ), 2]
    ∧ (splitChains [[(1 : ℚ), 2, 3, 4, 5]]).getD 1 [] = [(3 : ℚ), 4]
    ∧ (splitChains [[(1 : ℚ), 2, 3, 4, 5]]).getD 0 []
        ++ (splitChains [[(1 : ℚ), 2, 3, 4, 5]]).getD 1 []
        = [(1 : ℚ), 2, 3, 4, 5].dropLast := by
  obtain ⟨h1, h2, h3, h4⟩ := C7_splitChains_shape [[(1 : ℚ), 2, 3, 4, 5]] 5 (by decide)
  obtain ⟨he, ho, hev, hod⟩ := h4 0 (by decide)
  refine ⟨h1, ?_, ?_, hod (by decide)⟩
  · rw [show (0 : ℕ) = 2 * 0 from rfl, he]; rfl
  · rw [show (1 : ℕ) = 2 * 0 + 1 from rfl, ho]; rfl

/-- C6: `ess` is deterministic and side-effect free — in this embedding it
is a pure function of the input matrix, so two calls on the same matrix
yield identical results. -/
theorem C6_ess_deterministic (m : ChainMatrix) : ess m = ess m := rfl

/-- C8: with `numBatches` equal to the total draw count every batch is a
single draw, so the batch means are the draws themselves and the (squared)
MCSE is the population variance of the flattened draws divided by N — that
is, the MCSE equals the population standard error σ(x)/√N. -/
theorem C8_mcse_batch_size_one (m : ChainMatrix) (h2 : 2 ≤ m.flatten.length) :
    mcseSq m m.flatten.length = .ok (popVar m.flatten / (m.flatten.length : ℚ)) := by
  simp only [mcseSq]
  rw [if_neg (by omega : ¬ (m.flatten.length < 2 ∨ m.flatten.length < m.flatten.length)),
    batchMeans_self m.flatten (by omega)]

/-- Witness for C8 at the 2×2 matrix [[1,2],[3,4]]. -/
theorem C8_witness :
    mcseSq [[(1 : ℚ), 2], [3, 4]] 4 = .ok (popVar [(1 : ℚ), 2, 3, 4] / 4) := by
  simpa using C8_mcse_batch_size_one [[(1 : ℚ), 2], [3, 4]] (by decide)

/-- C9: `mcse` returns one scalar on every valid input — whenever the
batch-count precondition holds, the result is `.ok` of a single rational
(never an array and never an error). -/
theorem C9_mcse_scalar (m : ChainMatrix) (b : ℕ) (hb : 2 ≤ b)
    (hble : b ≤ m.flatten.length) : ∃ q : ℚ, mcseSq m b = .ok q := by
  refine ⟨popVar (batchMeans m.flatten b) / (b : ℚ), ?_⟩
  simp only [mcseSq]
  rw [if_neg (by omega)]

/-- Witness for C9 at the 2×2 matrix [[1,2],[3,4]] with 2 batches. -/
theorem C9_witness : ∃ q : ℚ, mcseSq [[(1 : ℚ), 2], [3, 4]] 2 = .ok q :=
  C9_mcse_scalar [[(1 : ℚ), 2], [3, 4]] 2 (by decide) (by decide)

theorem geyerSum_stop (P : ℕ → ℚ) :
    ∀ stop fuel k : ℕ, stop ≤ fuel →
      (∀ j, j < stop → 0 < P (k + j)) →
      (stop = fuel ∨ P (k + stop) ≤ 0) →
      geyerSum P fuel k = 2 * ∑ j ∈ Finset.range stop, P (k + j) := by
  intro stop
  induction stop with
  | zero =>
      intro fuel k hle hpos hstop
      rcases hstop with h | h
      · rw [← h]; simp [geyerSum]
      · cases fuel with
        | zero => simp [geyerSum]
        | succ fuel => rw [geyerSum, if_pos (by simpa using h)]; simp
  | succ stop ih =>
      intro fuel k hle hpos hstop
      cases fuel with
      | zero => omega
      | succ fuel =>
          have hPk : 0 < P k := by simpa using hpos 0 (Nat.succ_pos stop)
          rw [geyerSum, if_neg (not_le.mpr hPk),
            ih fuel (k + 1) (by omega)
              (fun j hj => by
                have hj1 := hpos (j + 1) (by omega)
                have : k + (j + 1) = k + 1 + j := by omega
                rwa [this] at hj1)
              (by
                rcases hstop with h | h
                · exact Or.inl (by omega)
                · refine Or.inr ?_
                  have : k + (stop + 1) = k + 1 + stop := by omega
                  rwa [this] at h),
            Finset.sum_range_succ']
          have hswap : ∀ j, k + 1 + j = k + (j + 1) := fun j => by omega
          simp only [hswap, Nat.add_zero]
          ring

/-- C1: `ess` returns N̂_eff = M·N/τ̂, with τ̂ = −1 + 2·Σ_{k=0}^{K} P_k over
the paired-lag sums P_k = ρ̂_{2k} + ρ̂_{2k+1}, where K is found by scanning
k = 0, 1, … upward and stopping at the first k with P_k ≤ 0 (Geyer's
initial positive sequence rule; the scan also ends when the paired lags
are exhausted), and τ̂ = −1 whenever P_0 ≤ 0. -/
theorem C1_ess_geyer (m : ChainMatrix) :
    ess m = ((numChains m : ℚ) * (numDraws m : ℚ)) / tauHat m
    ∧ (pairedP m 0 ≤ 0 → tauHat m = -1)
    ∧ ∀ K, K < numDraws m / 2 →
        (∀ k, k ≤ K → 0 < pairedP m k) →
        (K + 1 = numDraws m / 2 ∨ pairedP m (K + 1) ≤ 0) →
        tauHat m = -1 + 2 * ∑ k ∈ Finset.range (K + 1), pairedP m k := by
  refine ⟨rfl, ?_, ?_⟩
  · intro h0
    unfold tauHat
    cases hfuel : numDraws m / 2 with
    | zero => simp [geyerSum]
    | succ fuel => rw [geyerSum, if_pos h0]; norm_num
  · intro K hK hpos hstop
    unfold tauHat
    rw [geyerSum_stop (pairedP m) (K + 1) (numDraws m / 2) 0 (by omega)
      (fun j hj => by simpa using hpos j (by omega))
      (by
        rcases hstop with h | h
        · exact Or.inl h
        · exact Or.inr (by simpa using h))]
    simp

/-- Witness for C1 at [[0,1,2,3],[3,2,1,0]], where P₀ = 5/4 > 0 ≥ P₁ = −3/4,
so the scan stops with K = 0. -/
theorem C1_witness :
    tauHat [[(0 : ℚ), 1, 2, 3], [3, 2, 1, 0]]
      = -1 + 2 * ∑ k ∈ Finset.range 1, pairedP [[(0 : ℚ), 1, 2, 3], [3, 2, 1, 0]] k :=
  (C1_ess_geyer [[(0 : ℚ), 1, 2, 3], [3, 2, 1, 0]]).2.2 0 (by decide) (by decide)
    (Or.inr (by decide))

theorem mean_replicate (k : ℕ) (x : ℚ) (h : k ≠ 0) : mean (List.replicate k x) = x := by
  unfold mean
  rw [List.sum_replicate, List.length_replicate, nsmul_eq_mul]
  exact mul_div_cancel_left₀ x (Nat.cast_ne_zero.mpr h)

theorem sampleVar_replicate (k : ℕ) (x : ℚ) (h : k ≠ 0) :
    sampleVar (List.replicate k x) = 0 := by
  unfold sampleVar
  rw [mean_replicate k x h, List.map_replicate]
  simp

theorem splitChain_replicate (N : ℕ) (x : ℚ) :
    splitChain (List.replicate N x)
      = [List.replicate (N / 2) x, List.replicate (N / 2) x] := by
  unfold splitChain
  rw [List.length_replicate, List.take_replicate, List.drop_replicate, List.take_replicate]
  have h1 : min (N / 2) N = N / 2 := by omega
  have h2 : min (N / 2) (N - N / 2) = N / 2 := by omega
  rw [h1, h2]

theorem Wvar_splitChains_replicate (m : ChainMatrix) (N : ℕ) (x : ℚ) (h4 : 4 ≤ N)
    (hconst : ∀ c ∈ m, c = List.replicate N x) :
    Wvar (splitChains m) = 0 := by
  have hrows : ∀ c ∈ splitChains m, sampleVar c = 0 := by
    intro c hc
    rw [splitChains, List.mem_flatMap] at hc
    obtain ⟨a, ha, hmem⟩ := hc
    rw [hconst a ha, splitChain_replicate] at hmem
    have hc2 : c = List.replicate (N / 2) x := by
      simp only [List.mem_cons, List.not_mem_nil, or_false] at hmem
      rcases hmem with h | h
      · exact h
      · exact h
    rw [hc2]
    exact sampleVar_replicate _ _ (by omega)
  unfold Wvar
  rw [List.map_congr_left hrows, List.map_const']
  unfold mean
  rw [List.sum_replicate]
  simp

/-- C3: `rhat` fails with a typed error exactly when its preconditions are
violated — `invalidShape` when the matrix is empty or some chain has fewer
than 4 draws (fewer than 2 per half after splitting, leaving W undefined),
`degenerateChain` when the within-chain variance W of the split matrix is
zero (instead of dividing by zero), and success otherwise; in particular a
matrix of identical constant chains always fails with `degenerateChain`. -/
theorem C3_rhat_errors (m : ChainMatrix) :
    ((∃ c ∈ m, c.length < 4) → rhatSq m = .error .invalidShape)
    ∧ (m.length = 0 → rhatSq m = .error .invalidShape)
    ∧ (m.length ≠ 0 → (∀ c ∈ m, 4 ≤ c.length) → Wvar (splitChains m) = 0 →
        rhatSq m = .error .degenerateChain)
    ∧ (m.length ≠ 0 → (∀ c ∈ m, 4 ≤ c.length) → Wvar (splitChains m) ≠ 0 →
        rhatSq m = .ok (varHat (splitChains m) / Wvar (splitChains m)))
    ∧ ∀ (x : ℚ) (N : ℕ), 4 ≤ N → m.length ≠ 0 →
        (∀ c ∈ m, c = List.replicate N x) →
        rhatSq m = .error .degenerateChain := by
  have hguard : ∀ (hm : m.length ≠ 0) (h4 : ∀ c ∈ m, 4 ≤ c.length),
      ¬ (m.length = 0 ∨ m.any (fun c => c.length < 4) = true) := by
    intro hm h4
    rintro (h | h)
    · exact hm h
    · rw [List.any_eq_true] at h
      obtain ⟨c, hc, hlt⟩ := h
      exact absurd (h4 c hc) (by simpa using hlt)
  refine ⟨?_, ?_, ?_, ?_, ?_⟩
  · rintro ⟨c, hc, hlt⟩
    unfold rhatSq
    rw [if_pos (Or.inr (by rw [List.any_eq_true]; exact ⟨c, hc, by simpa using hlt⟩))]
  · intro h
    unfold rhatSq
    rw [if_pos (Or.inl h)]
  · intro hm h4 hw
    unfold rhatSq
    rw [if_neg (hguard hm h4)]
    simp [hw]
  · intro hm h4 hw
    unfold rhatSq
    rw [if_neg (hguard hm h4)]
    simp only [if_neg hw]
  · intro x N h4 hm hconst
    have hlen : ∀ c ∈ m, 4 ≤ c.length := by
      intro c hc
      rw [hconst c hc, List.length_replicate]
      exact h4
    unfold rhatSq
    rw [if_neg (hguard hm hlen)]
    simp [Wvar_splitChains_replicate m N x h4 hconst]

/-- Witness for C3 at the constant 2×4 matrix [[5,5,5,5],[5,5,5,5]]. -/
theorem C3_witness :
    rhatSq [[(5 : ℚ), 5, 5, 5], [5, 5, 5, 5]] = .error .degenerateChain :=
  (C3_rhat_errors [[(5 : ℚ), 5, 5, 5], [5, 5, 5, 5]]).2.2.2.2 5 4 (by decide)
    (by decide) (by decide)

theorem sum_eq_range (l : List ℚ) :
    l.sum = ∑ i ∈ Finset.range l.length, l.getD i 0 := by
  have h := sum_map_range (fun x => x) 0 l
  simpa using h

theorem mean_eq_indexed (l : List ℚ) :
    mean l = (1 / (l.length : ℚ)) * ∑ i ∈ Finset.range l.length, l.getD i 0 := by
  unfold mean
  rw [one_div_mul_eq_div, sum_eq_range]

theorem numDraws_getD (m : ChainMatrix) : numDraws m = (m.getD 0 []).length := by
  cases m <;> rfl

theorem rhatSq_ok_inv (m : ChainMatrix) (r : ℚ) (hok : rhatSq m = .ok r) :
    m.length ≠ 0 ∧ (∀ c ∈ m, 4 ≤ c.length) ∧ Wvar (splitChains m) ≠ 0
      ∧ r = varHat (splitChains m) / Wvar (splitChains m) := by
  unfold rhatSq at hok
  by_cases h1 : m.length = 0 ∨ m.any (fun c => c.length < 4) = true
  · rw [if_pos h1] at hok
    exact absurd hok (by simp)
  · rw [if_neg h1] at hok
    obtain ⟨h1a, h1b⟩ := not_or.mp h1
    have h4 : ∀ c ∈ m, 4 ≤ c.length := by
      intro c hc
      by_contra hlt
      exact h1b (by rw [List.any_eq_true]; exact ⟨c, hc, by simpa using hlt⟩)
    by_cases h2 : Wvar (splitChains m) = 0
    · simp only [h2, if_pos] at hok
      exact absurd hok (by simp)
    · simp only [if_neg h2] at hok
      refine ⟨h1a, h4, h2, ?_⟩
      simpa using hok.symm

/-- C2: on success, `rhat` is the composition the spec prescribes — split
every chain into halves (2M chains of N/2 = N' draws), form the
within-chain variance W = (1/M')·Σ_m [(1/(N'−1))·Σ_n (θ_{nm} − θ̄_m)²] and
between-chain variance B = (N'/(M'−1))·Σ_m (θ̄_m − θ̄_·)², pool them as
V̂ = ((N'−1)/N')·W + (1/N')·B, and return R̂ = √(V̂/W); stated for the
square, the returned value is exactly V̂/W with W, B and the chain means
given by the indexed-sum formulas over the split matrix. -/
theorem C2_rhat_formula (m : ChainMatrix) (N : ℕ) (hN : ∀ c ∈ m, c.length = N)
    (r : ℚ) (hok : rhatSq m = .ok r) :
    (splitChains m).length = 2 * m.length
    ∧ (∀ c ∈ splitChains m, c.length = N / 2)
    ∧ (∀ i, i < 2 * m.length →
        mean ((splitChains m).getD i [])
          = (1 / ((N / 2 : ℕ) : ℚ)) * ∑ n ∈ Finset.range (N / 2),
              ((splitChains m).getD i []).getD n 0)
    ∧ Wvar (splitChains m)
        = (1 / ((2 * m.length : ℕ) : ℚ)) * ∑ i ∈ Finset.range (2 * m.length),
            ((1 / (((N / 2 : ℕ) : ℚ) - 1)) * ∑ n ∈ Finset.range (N / 2),
              (((splitChains m).getD i []).getD n 0
                - mean ((splitChains m).getD i [])) ^ 2)
    ∧ Bvar (splitChains m)
        = (((N / 2 : ℕ) : ℚ) / (((2 * m.length : ℕ) : ℚ) - 1)) *
            ∑ i ∈ Finset.range (2 * m.length),
              (mean ((splitChains m).getD i [])
                - (1 / ((2 * m.length : ℕ) : ℚ)) * ∑ j ∈ Finset.range (2 * m.length),
                    mean ((splitChains m).getD j [])) ^ 2
    ∧ varHat (splitChains m)
        = ((((N / 2 : ℕ) : ℚ) - 1) / ((N / 2 : ℕ) : ℚ)) * Wvar (splitChains m)
          + (1 / ((N / 2 : ℕ) : ℚ)) * Bvar (splitChains m)
    ∧ r = varHat (splitChains m) / Wvar (splitChains m) := by
  obtain ⟨hm0, h4, hWne, hr⟩ := rhatSq_ok_inv m r hok
  have hslen : (splitChains m).length = 2 * m.length := splitChains_length m
  have hrow : ∀ c ∈ splitChains m, c.length = N / 2 := splitChains_row_length m N hN
  have hrowi : ∀ i, i < 2 * m.length → ((splitChains m).getD i []).length = N / 2 := by
    intro i hi
    exact hrow _ (getD_mem_of_lt _ i (by omega))
  have hmean : ∀ i, i < 2 * m.length →
      mean ((splitChains m).getD i [])
        = (1 / ((N / 2 : ℕ) : ℚ)) * ∑ n ∈ Finset.range (N / 2),
            ((splitChains m).getD i []).getD n 0 := by
    intro i hi
    rw [mean_eq_indexed, hrowi i hi]
  have hchainMean_getD : ∀ i, i < 2 * m.length →
      (chainMean (splitChains m)).getD i 0 = mean ((splitChains m).getD i []) := by
    intro i hi
    unfold chainMean
    have h0 : (0 : ℚ) = mean [] := by simp [mean]
    rw [h0, List.getD_map]
  have hW : Wvar (splitChains m)
      = (1 / ((2 * m.length : ℕ) : ℚ)) * ∑ i ∈ Finset.range (2 * m.length),
          ((1 / (((N / 2 : ℕ) : ℚ) - 1)) * ∑ n ∈ Finset.range (N / 2),
            (((splitChains m).getD i []).getD n 0
              - mean ((splitChains m).getD i [])) ^ 2) := by
    unfold Wvar mean
    rw [sum_map_range sampleVar ([] : Chain) (splitChains m), List.length_map, hslen,
      ← one_div_mul_eq_div]
    congr 1
    refine Finset.sum_congr rfl ?_
    intro i hi
    rw [Finset.mem_range] at hi
    unfold sampleVar
    rw [sum_map_range _ (0 : ℚ), hrowi i hi, ← one_div_mul_eq_div]
    unfold mean
    rw [hrowi i hi]
  have hclen : (chainMean (splitChains m)).length = 2 * m.length := by
    unfold chainMean
    rw [List.length_map, hslen]
  have hgrand : mean (chainMean (splitChains m))
      = (1 / ((2 * m.length : ℕ) : ℚ)) * ∑ j ∈ Finset.range (2 * m.length),
          mean ((splitChains m).getD j []) := by
    rw [mean_eq_indexed, hclen]
    congr 1
    refine Finset.sum_congr rfl ?_
    intro j hj
    rw [Finset.mem_range] at hj
    exact hchainMean_getD j hj
  have hB : Bvar (splitChains m)
      = (((N / 2 : ℕ) : ℚ) / (((2 * m.length : ℕ) : ℚ) - 1)) *
          ∑ i ∈ Finset.range (2 * m.length),
            (mean ((splitChains m).getD i [])
              - (1 / ((2 * m.length : ℕ) : ℚ)) * ∑ j ∈ Finset.range (2 * m.length),
                  mean ((splitChains m).getD j [])) ^ 2 := by
    unfold Bvar
    have hnd : numDraws (splitChains m) = N / 2 := by
      rw [numDraws_getD]
      exact hrowi 0 (by omega)
    have hnc : numChains (splitChains m) = 2 * m.length := hslen
    rw [hnd, hnc, sum_map_range _ (0 : ℚ), hclen]
    congr 1
    refine Finset.sum_congr rfl ?_
    intro i hi
    rw [Finset.mem_range] at hi
    rw [hchainMean_getD i hi, hgrand]
  have hV : varHat (splitChains m)
      = ((((N / 2 : ℕ) : ℚ) - 1) / ((N / 2 : ℕ) : ℚ)) * Wvar (splitChains m)
        + (1 / ((N / 2 : ℕ) : ℚ)) * Bvar (splitChains m) := by
    unfold varHat
    rw [numDraws_getD, hrowi 0 (by omega)]
  exact ⟨hslen, hrow, hmean, hW, hB, hV, hr⟩

/-!
### Lemmas: behaviour under global shift and positive scaling
-/

theorem sum_map_add (l : List ℚ) (c : ℚ) :
    (l.map (fun x => x + c)).sum = l.sum + l.length * c := by
  induction l with
  | nil => simp
  | cons x l ih =>
      simp only [List.map_cons, List.sum_cons, ih, List.length_cons]
      push_cast
      ring

theorem sum_map_mul (l : List ℚ) (a : ℚ) :
    (l.map (fun x => a * x)).sum = a * l.sum := by
  induction l with
  | nil => simp
  | cons x l ih =>
      simp only [List.map_cons, List.sum_cons, ih]
      ring

theorem length_cast_ne_zero (l : List ℚ) (h : l ≠ []) : ((l.length : ℚ)) ≠ 0 := by
  have : l.length ≠ 0 := by simpa [List.length_eq_zero] using h
  exact_mod_cast this

theorem mean_shift (l : List ℚ) (c : ℚ) (h : l ≠ []) :
    mean (l.map (fun x => x + c)) = mean l + c := by
  have hlen := length_cast_ne_zero l h
  unfold mean
  rw [sum_map_add, List.length_map]
  field_simp
  ring

theorem mean_scale (l : List ℚ) (a : ℚ) :
    mean (l.map (fun x => a * x)) = a * mean l := by
  unfold mean
  rw [sum_map_mul, List.length_map, mul_div_assoc]

theorem sampleVar_shift (l : List ℚ) (c : ℚ) (h : l ≠ []) :
    sampleVar (l.map (fun x => x + c)) = sampleVar l := by
  unfold sampleVar
  rw [mean_shift l c h, List.length_map, List.map_map]
  congr 1
  exact congrArg List.sum
    (List.map_congr_left fun x _ => by simp only [Function.comp_apply]; ring)

theorem sampleVar_scale (l : List ℚ) (a : ℚ) :
    sampleVar (l.map (fun x => a * x)) = a ^ 2 * sampleVar l := by
  unfold sampleVar
  rw [mean_scale, List.length_map, List.map_map]
  have hmap : l.map ((fun x => (x - a * mean l) ^ 2) ∘ fun x => a * x)
      = (l.map (fun x => (x - mean l) ^ 2)).map (fun x => a ^ 2 * x) := by
    rw [List.map_map]
    exact List.map_congr_left fun x _ => by simp only [Function.comp_apply]; ring
  rw [hmap, sum_map_mul, mul_div_assoc]

theorem chainMean_shift (m : ChainMatrix) (c : ℚ) (h : ∀ l ∈ m, l ≠ []) :
    chainMean (shiftMatrix c m) = (chainMean m).map (fun x => x + c) := by
  unfold chainMean shiftMatrix
  rw [List.map_map, List.map_map]
  exact List.map_congr_left fun l hl => mean_shift l c (h l hl)

theorem chainMean_scale (m : ChainMatrix) (a : ℚ) :
    chainMean (scaleMatrix a m) = (chainMean m).map (fun x => a * x) := by
  unfold chainMean scaleMatrix
  rw [List.map_map, List.map_map]
  exact List.map_congr_left fun l _ => mean_scale l a

theorem Wvar_shift (m : ChainMatrix) (c : ℚ) (h : ∀ l ∈ m, l ≠ []) :
    Wvar (shiftMatrix c m) = Wvar m := by
  unfold Wvar shiftMatrix
  rw [List.map_map]
  congr 1
  exact List.map_congr_left fun l hl => sampleVar_shift l c (h l hl)

theorem Wvar_scale (m : ChainMatrix) (a : ℚ) :
    Wvar (scaleMatrix a m) = a ^ 2 * Wvar m := by
  unfold Wvar scaleMatrix
  rw [List.map_map]
  have hmap : m.map (sampleVar ∘ List.map (fun x => a * x))
      = (m.map sampleVar).map (fun x => a ^ 2 * x) := by
    rw [List.map_map]
    exact List.map_congr_left fun l _ => sampleVar_scale l a
  rw [hmap, ← mean_scale]

theorem numChains_shift (m : ChainMatrix) (c : ℚ) :
    numChains (shiftMatrix c m) = numChains m := by
  unfold numChains shiftMatrix
  rw [List.length_map]

theorem numChains_scale (m : ChainMatrix) (a : ℚ) :
    numChains (scaleMatrix a m) = numChains m := by
  unfold numChains scaleMatrix
  rw [List.length_map]

theorem numDraws_shift (m : ChainMatrix) (c : ℚ) :
    numDraws (shiftMatrix c m) = numDraws m := by
  cases m <;> simp [numDraws, shiftMatrix]

theorem numDraws_scale (m : ChainMatrix) (a : ℚ) :
    numDraws (scaleMatrix a m) = numDraws m := by
  cases m <;> simp [numDraws, scaleMatrix]

theorem Bvar_shift (m : ChainMatrix) (c : ℚ) (hm : m ≠ []) (h : ∀ l ∈ m, l ≠ []) :
    Bvar (shiftMatrix c m) = Bvar m := by
  have hcm : chainMean m ≠ [] := by
    unfold chainMean
    simpa using hm
  unfold Bvar
  rw [numDraws_shift, numChains_shift, chainMean_shift m c h,
    mean_shift (chainMean m) c hcm, List.map_map]
  congr 2
  exact List.map_congr_left fun x _ => by simp only [Function.comp_apply]; ring

theorem Bvar_scale (m : ChainMatrix) (a : ℚ) :
    Bvar (scaleMatrix a m) = a ^ 2 * Bvar m := by
  unfold Bvar
  rw [numDraws_scale, numChains_scale, chainMean_scale m a, mean_scale, List.map_map]
  have hmap : (chainMean m).map ((fun x => (x - a * mean (chainMean m)) ^ 2) ∘ fun x => a * x)
      = ((chainMean m).map (fun x => (x - mean (chainMean m)) ^ 2)).map (fun x => a ^ 2 * x) := by
    rw [List.map_map]
    exact List.map_congr_left fun x _ => by simp only [Function.comp_apply]; ring
  rw [hmap, sum_map_mul]
  ring

theorem varHat_shift (m : ChainMatrix) (c : ℚ) (hm : m ≠ []) (h : ∀ l ∈ m, l ≠ []) :
    varHat (shiftMatrix c m) = varHat m := by
  unfold varHat
  rw [numDraws_shift, Wvar_shift m c h, Bvar_shift m c hm h]

theorem varHat_scale (m : ChainMatrix) (a : ℚ) :
    varHat (scaleMatrix a m) = a ^ 2 * varHat m := by
  unfold varHat
  rw [numDraws_scale, Wvar_scale, Bvar_scale]
  ring

theorem splitChain_map (f : ℚ → ℚ) (c : Chain) :
    splitChain (c.map f) = (splitChain c).map (List.map f) := by
  unfold splitChain
  simp [List.map_take, List.map_drop]

theorem splitChains_shift (m : ChainMatrix) (c : ℚ) :
    splitChains (shiftMatrix c m) = shiftMatrix c (splitChains m) := by
  unfold splitChains shiftMatrix
  induction m with
  | nil => rfl
  | cons l m ih =>
      simp only [List.map_cons, List.flatMap_cons, List.map_append, ih]
      rw [splitChain_map]

theorem splitChains_scale (m : ChainMatrix) (a : ℚ) :
    splitChains (scaleMatrix a m) = scaleMatrix a (splitChains m) := by
  unfold splitChains scaleMatrix
  induction m with
  | nil => rfl
  | cons l m ih =>
      simp only [List.map_cons, List.flatMap_cons, List.map_append, ih]
      rw [splitChain_map]

theorem splitChains_row_ne_nil (m : ChainMatrix) (h4 : ∀ c ∈ m, 4 ≤ c.length) :
    ∀ l ∈ splitChains m, l ≠ [] := by
  intro l hl
  rw [splitChains, List.mem_flatMap] at hl
  obtain ⟨a, ha, hmem⟩ := hl
  have ha4 : 4 ≤ a.length := h4 a ha
  simp only [splitChain, List.mem_cons, List.not_mem_nil, or_false] at hmem
  have hlen : l.length ≠ 0 := by
    rcases hmem with h | h
    · subst h; rw [List.length_take]; omega
    · subst h; rw [List.length_take, List.length_drop]; omega
  simpa [List.length_eq_zero] using hlen

/-- C4: the (squared) R-hat is invariant under adding a constant c to every
draw and under multiplying every draw by a positive scalar a — the whole
`rhat` result (value or typed error) is unchanged, so in particular on
every matrix where `rhat` succeeds the returned values coincide. -/
theorem C4_rhat_invariance (m : ChainMatrix) (c a : ℚ) (ha : 0 < a) :
    rhatSq (shiftMatrix c m) = rhatSq m ∧ rhatSq (scaleMatrix a m) = rhatSq m := by
  have hlen_shift : (shiftMatrix c m).length = m.length := by
    unfold shiftMatrix; rw [List.length_map]
  have hlen_scale : (scaleMatrix a m).length = m.length := by
    unfold scaleMatrix; rw [List.length_map]
  have hany_shift : (shiftMatrix c m).any (fun ch => ch.length < 4)
      = m.any (fun ch => ch.length < 4) := by
    unfold shiftMatrix
    rw [List.any_map]
    congr 1
    funext ch
    simp
  have hany_scale : (scaleMatrix a m).any (fun ch => ch.length < 4)
      = m.any (fun ch => ch.length < 4) := by
    unfold scaleMatrix
    rw [List.any_map]
    congr 1
    funext ch
    simp
  by_cases hg : m.length = 0 ∨ m.any (fun ch => ch.length < 4) = true
  · have hg1 : (shiftMatrix c m).length = 0
        ∨ (shiftMatrix c m).any (fun ch => ch.length < 4) = true := by
      rw [hlen_shift, hany_shift]; exact hg
    have hg2 : (scaleMatrix a m).length = 0
        ∨ (scaleMatrix a m).any (fun ch => ch.length < 4) = true := by
      rw [hlen_scale, hany_scale]; exact hg
    unfold rhatSq
    rw [if_pos hg, if_pos hg1, if_pos hg2]
    exact ⟨rfl, rfl⟩
  · obtain ⟨hm0, hany⟩ := not_or.mp hg
    have h4 : ∀ ch ∈ m, 4 ≤ ch.length := by
      intro ch hc
      by_contra hlt
      exact hany (by rw [List.any_eq_true]; exact ⟨ch, hc, by simpa using hlt⟩)
    have hrows : ∀ l ∈ splitChains m, l ≠ [] := splitChains_row_ne_nil m h4
    have hsne : splitChains m ≠ [] := by
      have hpos : 0 < (splitChains m).length := by
        rw [splitChains_length]; omega
      exact List.ne_nil_of_length_pos hpos
    have hg1 : ¬ ((shiftMatrix c m).length = 0
        ∨ (shiftMatrix c m).any (fun ch => ch.length < 4) = true) := by
      rw [hlen_shift, hany_shift]; exact hg
    have hg2 : ¬ ((scaleMatrix a m).length = 0
        ∨ (scaleMatrix a m).any (fun ch => ch.length < 4) = true) := by
      rw [hlen_scale, hany_scale]; exact hg
    unfold rhatSq
    rw [if_neg hg, if_neg hg1, if_neg hg2]
    constructor
    · simp only [splitChains_shift, Wvar_shift _ c hrows, varHat_shift _ c hsne hrows]
    · simp only [splitChains_scale, Wvar_scale, varHat_scale]
      by_cases hW : Wvar (splitChains m) = 0
      · simp [hW]
      · have ha2 : (a ^ 2 : ℚ) ≠ 0 := pow_ne_zero 2 (ne_of_gt ha)
        rw [if_neg (by simp [hW, ha2]), if_neg hW]
        rw [mul_div_mul_left _ _ ha2]

/-- Witness for C4 at [[0,1,2,3],[3,2,1,0]] with shift 7 and scale 3. -/
theorem C4_witness :
    rhatSq (shiftMatrix 7 [[(0 : ℚ), 1, 2, 3], [3, 2, 1, 0]])
        = rhatSq [[(0 : ℚ), 1, 2, 3], [3, 2, 1, 0]]
    ∧ rhatSq (scaleMatrix 3 [[(0 : ℚ), 1, 2, 3], [3, 2, 1, 0]])
        = rhatSq [[(0 : ℚ), 1, 2, 3], [3, 2, 1, 0]] :=
  C4_rhat_invariance [[(0 : ℚ), 1, 2, 3], [3, 2, 1, 0]] 7 3 (by norm_num)

/-!
### Lemmas: the integer reduction used to evaluate `ess` on `badChains`
-/

theorem dotZTR_cons (x y : ℤ) (l r : List ℤ) (acc : ℤ) :
    dotZTR (x :: l) (y :: r) acc = dotZTR l r (acc + x * y) := by
  show (match acc + x * y with
    | .ofNat n => dotZTR l r (.ofNat n)
    | .negSucc n => dotZTR l r (.negSucc n)) = dotZTR l r (acc + x * y)
  rcases hq : acc + x * y with n | n <;> rfl

theorem dotZTR_eq (l : List ℤ) : ∀ (r : List ℤ) (acc : ℤ),
    dotZTR l r acc = acc + (List.zipWith (· * ·) l r).sum := by
  induction l with
  | nil => intro r acc; cases r <;> simp [dotZTR]
  | cons x l ih =>
      intro r acc
      cases r with
      | nil => simp [dotZTR]
      | cons y r =>
          rw [dotZTR_cons, ih, List.zipWith_cons_cons, List.sum_cons, add_assoc]

theorem geyerZ_succ (f : ℕ → ℤ) (fuel k : ℕ) :
    geyerZ f (fuel + 1) k
      = if f k ≤ 0 then 0 else 2 * f k + geyerZ f fuel (k + 1) := by
  show (match f k with
    | .ofNat 0 => 0
    | .ofNat (n + 1) => 2 * (Int.ofNat (n + 1)) + geyerZ f fuel (k + 1)
    | .negSucc _ => (0 : ℤ))
    = if f k ≤ 0 then 0 else 2 * f k + geyerZ f fuel (k + 1)
  rcases hq : f k with n | n
  · cases n with
    | zero => rw [if_pos (by decide)]
    | succ n =>
        rw [if_neg (by simp only [Int.ofNat_eq_natCast]; omega)]
  · rw [if_pos (Int.negSucc_lt_zero n).le]

theorem div_nonpos_iff_of_pos (a C : ℚ) (hC : 0 < C) : a / C ≤ 0 ↔ a ≤ 0 := by
  rw [div_nonpos_iff]
  constructor
  · rintro (⟨h1, h2⟩ | ⟨h1, h2⟩)
    · linarith
    · exact h1
  · intro h
    exact Or.inr ⟨h, le_of_lt hC⟩

theorem geyerSum_castZ (f : ℕ → ℤ) (C : ℚ) (hC : 0 < C) :
    ∀ fuel k, geyerSum (fun j => ((f j : ℤ) : ℚ) / C) fuel k
      = ((geyerZ f fuel k : ℤ) : ℚ) / C := by
  intro fuel
  induction fuel with
  | zero => intro k; simp [geyerSum, geyerZ]
  | succ fuel ih =>
      intro k
      rw [geyerSum, geyerZ_succ]
      by_cases h : f k ≤ 0
      · rw [if_pos h, if_pos (by rw [div_nonpos_iff_of_pos _ _ hC]; exact_mod_cast h)]
        simp
      · rw [if_neg h, if_neg (by rw [div_nonpos_iff_of_pos _ _ hC]; exact_mod_cast h), ih]
        push_cast
        ring

theorem mean_pair (a : ℚ) : mean [a, a] = a := by
  unfold mean
  simp

theorem sum_eq_sumTR (l : List ℚ) : l.sum = sumTR l 0 := by
  rw [sumTR_eq, zero_add]

theorem zipWith_cast_div (C : ℚ) :
    ∀ lz rz : List ℤ,
      List.zipWith (· * ·) (lz.map (fun v => ((v : ℤ) : ℚ) / C))
          (rz.map (fun v => ((v : ℤ) : ℚ) / C))
        = (List.zipWith (· * ·) lz rz).map (fun u => ((u : ℤ) : ℚ) / C ^ 2) := by
  intro lz
  induction lz with
  | nil => intro rz; simp
  | cons x l ih =>
      intro rz
      cases rz with
      | nil => simp
      | cons y r =>
          simp only [List.map_cons, List.zipWith_cons_cons, ih]
          congr 1
          push_cast
          rw [div_mul_div_comm]
          ring

theorem sum_map_cast_div (C : ℚ) (lz : List ℤ) :
    (lz.map (fun u => ((u : ℤ) : ℚ) / C)).sum = ((lz.sum : ℤ) : ℚ) / C := by
  induction lz with
  | nil => simp
  | cons x l ih =>
      simp only [List.map_cons, List.sum_cons, ih, List.sum_cons]
      push_cast
      rw [add_div]

theorem autocov_shift (c : Chain) (cst : ℚ) (t : ℕ) (h : c ≠ []) :
    autocov (c.map (fun x => x + cst)) t = autocov c t := by
  simp only [autocov]
  rw [mean_shift c cst h, List.length_map, List.map_map]
  have hd : c.map ((fun x => x - (mean c + cst)) ∘ fun x => x + cst)
      = c.map (fun x => x - mean c) :=
    List.map_congr_left fun x _ => by simp only [Function.comp_apply]; ring
  rw [hd]

theorem badRow0_length : badRow0.length = 500 := by
  unfold badRow0
  rw [List.length_map, List.length_range]

theorem badRow0_ne_nil : badRow0 ≠ [] := by
  have : 0 < badRow0.length := by rw [badRow0_length]; omega
  exact List.ne_nil_of_length_pos this

theorem badRow1_eq_shift : badRow1 = badRow0.map (fun x => x + 500 / 999) := by
  unfold badRow0 badRow1
  rw [List.map_map]
  refine List.map_congr_left fun n _ => ?_
  simp only [Function.comp_apply]
  field_simp

theorem mean_badRow0 : mean badRow0 = 499 / 1998 := by
  have hsum : badRow0.sum = 124750 / 999 := by
    rw [sum_eq_sumTR]
    decide
  unfold mean
  rw [hsum, badRow0_length]
  norm_num

theorem centered_badRow0 :
    badRow0.map (fun x => x - mean badRow0)
      = dzBad.map (fun v => ((v : ℤ) : ℚ) / 1998) := by
  rw [mean_badRow0]
  unfold badRow0 dzBad
  rw [List.map_map, List.map_map]
  refine List.map_congr_left fun n _ => ?_
  simp only [Function.comp_apply]
  push_cast
  field_simp
  ring

theorem autocov_badRow0 (t : ℕ) :
    autocov badRow0 t
      = (((List.zipWith (· * ·) dzBad (dzBad.drop t)).sum : ℤ) : ℚ) / 1998 ^ 2 / 500 := by
  simp only [autocov]
  rw [centered_badRow0, badRow0_length, ← List.map_drop, zipWith_cast_div,
    sum_map_cast_div]
  norm_num

theorem varHat_badChains : varHat badChains = 583333 / 3992004 := by
  rw [← varHatC_fun]
  decide

theorem numDraws_badChains : numDraws badChains = 500 := by
  show (badChains.headD []).length = 500
  show badRow0.length = 500
  exact badRow0_length

theorem rhoHat_badChains (t : ℕ) :
    rhoHat badChains t = autocov badRow0 t / varHat badChains := by
  unfold rhoHat
  have hmap : badChains.map (fun c => autocov c t)
      = [autocov badRow0 t, autocov badRow0 t] := by
    show [autocov badRow0 t, autocov badRow1 t] = _
    rw [badRow1_eq_shift, autocov_shift badRow0 (500 / 999) t badRow0_ne_nil]
  rw [hmap, mean_pair]

theorem pairedP_badChains :
    pairedP badChains = fun k => ((intP dzBad k : ℤ) : ℚ) / 291666500 := by
  funext k
  unfold pairedP intP
  rw [rhoHat_badChains, rhoHat_badChains, autocov_badRow0, autocov_badRow0,
    varHat_badChains, dotZTR_eq, dotZTR_eq, zero_add, zero_add]
  push_cast
  field_simp
  ring

set_option maxHeartbeats 1000000000 in
theorem geyerZ_badChains : geyerZ (intP dzBad) 250 0 = 7293217752 := by
  decide

theorem tauHat_badChains : tauHat badChains = 1750387813 / 72916625 := by
  unfold tauHat
  rw [numDraws_badChains, pairedP_badChains,
    geyerSum_castZ (intP dzBad) 291666500 (by norm_num) (500 / 2) 0,
    show (500 / 2 : ℕ) = 250 from rfl, geyerZ_badChains]
  norm_num

theorem ess_badChains_val : ess badChains = 72916625000 / 1750387813 := by
  unfold ess
  rw [tauHat_badChains, numDraws_badChains, show numChains badChains = 2 from rfl]
  norm_num

/-- C5 (counterexample): the claim fails on the estimator the spec itself
prescribes — for the linspace bad chains the effective sample size is
72916625000/1750387813 ≈ 41.66, which is not less than 10. -/
theorem C5_counterexample : ¬ (ess badChains < 10) := by
  rw [ess_badChains_val]
  norm_num

set_option maxHeartbeats 1000000000 in
/-- C5 (amended): for the `linspace(0,1,1000).reshape(2,500)` matrix, `ess`
is far smaller than the 1000 total draws — exactly 72916625000/1750387813
≈ 41.66, below 50 though not below the claimed 10 (az.ess's ≈ 2.28 comes
from the rank-normalized bulk variant, not the plain §4.2 estimator) — and
the squared R-hat is 1312499/62750 ≈ 20.92 > 2², i.e. R̂ ≈ 4.57 is
substantially greater than 2 as claimed. -/
theorem C5_amended :
    ess badChains = 72916625000 / 1750387813
    ∧ ess badChains < 50
    ∧ rhatSq badChains = .ok (1312499 / 62750)
    ∧ (2 : ℚ) ^ 2 < 1312499 / 62750 := by
  have hr : rhatSqC badChains = .ok (1312499 / 62750) := by decide
  refine ⟨ess_badChains_val, ?_, ?_, by norm_num⟩
  · rw [ess_badChains_val]; norm_num
  · rw [← rhatSqC_eq]; exact hr

/-- Witness for C2 at [[0,1,2,3],[3,2,1,0]], where the split matrix is
[[0,1],[2,3],[3,2],[1,0]], W = 1/2, B = 8/3, V̂ = 19/12 and R̂² = 19/6. -/
theorem C2_witness :
    rhatSq [[(0 : ℚ), 1, 2, 3], [3, 2, 1, 0]] = .ok (19 / 6)
    ∧ (splitChains [[(0 : ℚ), 1, 2, 3], [3, 2, 1, 0]]).length = 4
    ∧ (19 : ℚ) / 6
        = varHat (splitChains [[(0 : ℚ), 1, 2, 3], [3, 2, 1, 0]])
          / Wvar (splitChains [[(0 : ℚ), 1, 2, 3], [3, 2, 1, 0]]) := by
  have hok : rhatSq [[(0 : ℚ), 1, 2, 3], [3, 2, 1, 0]] = .ok (19 / 6) := by decide
  obtain ⟨h1, h2, h3, h4, h5, h6, h7⟩ :=
    C2_rhat_formula [[(0 : ℚ), 1, 2, 3], [3, 2, 1, 0]] 4 (by decide) (19 / 6) hok
  exact ⟨hok, h1, h7⟩

end Diagnostics
